import Mathlib

/-!
Shallow embedding of the `workroom` CLI (github.com/joelmoss/workroom) in Lean 4,
together with proofs about its name validation, VCS detection, git worktree
parsing, config-store operations and the create/delete orchestration flows.

Each definition is translated from the corresponding Go source:
  * `validName`            from `internal/workroom/workroom.go` (`validNameRe`)
  * `DetectM`              from `internal/vcs/vcs.go` (`Detect`)
  * `parseGitWorktrees`    from `internal/vcs/git.go` (`parseGitWorktrees`)
  * `goBase`               from Go's `path/filepath.Base` (unix)
  * `addWorkroom` etc.     from `internal/config/config.go`
  * `deleteM`, `createM`   from `internal/workroom/workroom.go` (trace semantics)
-/

set_option autoImplicit false

namespace Workroom

/-! ## Character classes and the workroom-name pattern

`validNameRe = ^[a-zA-Z0-9]([a-zA-Z0-9_-]*[a-zA-Z0-9])?$` from workroom.go. -/

def isAsciiAlnum (c : Char) : Bool :=
  ('a' ≤ c && c ≤ 'z') || ('A' ≤ c && c ≤ 'Z') || ('0' ≤ c && c ≤ '9')

def isNameChar (c : Char) : Bool :=
  isAsciiAlnum c || c = '_' || c = '-'

/-- Accepts the tail of a name: zero further characters, or name characters
ending in an alphanumeric character. This is `([a-zA-Z0-9_-]*[a-zA-Z0-9])?$`. -/
def validTail : List Char → Bool
  | [] => true
  | [c] => isAsciiAlnum c
  | c :: rest => isNameChar c && validTail rest

/-- `validNameRe.MatchString` from workroom.go: the whole string must match
`^[a-zA-Z0-9]([a-zA-Z0-9_-]*[a-zA-Z0-9])?$`. -/
def validName (s : String) : Bool :=
  match s.toList with
  | [] => false
  | c :: rest => isAsciiAlnum c && validTail rest

/-! ## VCS detection (`internal/vcs/vcs.go`)

`Detect` stats `dir/.jj` (requiring a directory) and then `dir/.git`
(any stat success). `jjStat = none` models a stat error, `some d` a
successful stat with `IsDir() = d`. `gitStat` models `err == nil`. -/

inductive VT where
  | jj
  | git
deriving DecidableEq, Repr

def DetectM (jjStat : Option Bool) (gitStat : Bool) : Except Unit VT :=
  match jjStat with
  | some true => .ok .jj
  | _ => if gitStat then .ok .git else .error ()

/-! ## Git worktree parsing (`internal/vcs/git.go`) -/

/-- Go `unicode.IsSpace` restricted to the ASCII range, as used by
`strings.Fields`. -/
def isGoSpace (c : Char) : Bool :=
  c = ' ' || c = '\t' || c = '\n' || c = '\x0b' || c = '\x0c' || c = '\r'

/-- Split a character list at every character satisfying `p`, keeping empty
chunks (the chunk boundaries themselves are dropped). -/
def splitWhen (p : Char → Bool) : List Char → List (List Char)
  | [] => [[]]
  | c :: rest =>
    match splitWhen p rest with
    | h :: t => if p c then [] :: h :: t else (c :: h) :: t
    | [] => [[]]

/-- `strings.Split(s, "\n")`. -/
def splitLines (s : String) : List String :=
  (splitWhen (fun c => c = '\n') s.toList).map String.mk

/-- `strings.Fields`: split around runs of whitespace, dropping empties. -/
def goFields (line : String) : List String :=
  (((splitWhen isGoSpace line.toList).filter (fun f => f ≠ [])).map String.mk)

/-- One step of the `for _, line := range strings.Split(output, "\n")` loop in
`parseGitWorktrees`. State is `(directory, result)`. -/
def pgwStep (cwd : String) (st : String × List String) (line : String) :
    String × List String :=
  let (directory, result) := st
  match goFields line with
  | f0 :: f1 :: _ =>
    let directory' := if f0 = "worktree" then f1 else directory
    let result' :=
      if f0 = "HEAD" && directory' ≠ cwd then result ++ [directory'] else result
    (directory', result')
  | _ => (directory, result)

/-- `parseGitWorktrees(output, cwd)` from git.go. -/
def parseGitWorktrees (output cwd : String) : List String :=
  ((splitLines output).foldl (pgwStep cwd) ("", [])).2

/-- `path/filepath.Base` on unix paths: empty ⇒ ".", all slashes ⇒ "/",
otherwise strip trailing slashes and keep everything after the last slash. -/
def goBase (p : String) : String :=
  if p = "" then "."
  else
    let r := p.toList.reverse.dropWhile (fun c => c = '/')
    if r = [] then "/"
    else String.mk (r.takeWhile (fun c => c ≠ '/')).reverse

/-- `Git.ListWorkrooms` given the porcelain output of `git worktree list`. -/
def gitListWorkrooms (output cwd : String) : List String :=
  (parseGitWorktrees output cwd).map goBase

/-- `Git.WorkroomExists` given the porcelain output. -/
def gitWorkroomExists (output cwd name : String) : Bool :=
  (parseGitWorktrees output cwd).any (fun p => goBase p = name)

/-! ## Config store (`internal/config/config.go`)

The config document is JSON decoded into `map[string]any`. Values the code
distinguishes by type assertion are strings and objects; objects are modelled
as built-in association lists (`onil`/`ocons`). Since `Write` is a full
overwrite and every operation is read-modify-write of the whole document,
`AddWorkroom`/`RemoveWorkroom`/`FindCurrentProject` are pure document
functions. -/

inductive J where
  | s : String → J
  | onil : J
  | ocons : String → J → J → J
deriving DecidableEq, Repr

namespace J

/-- Go type assertion `.(map[string]any)` succeeds exactly on objects. -/
def isObj : J → Bool
  | .s _ => false
  | _ => true

/-- Map lookup `m[k]` restricted to object-shaped values. -/
def get : J → String → Option J
  | .ocons k v rest, key => if k = key then some v else rest.get key
  | _, _ => none

/-- Map update `m[k] = v` on an object (no-op on a string value, which the
code never does). -/
def set : J → String → J → J
  | .onil, key, val => .ocons key val .onil
  | .ocons k v rest, key, val =>
    if k = key then .ocons key val rest else .ocons k v (rest.set key val)
  | .s str, _, _ => .s str

/-- Go `delete(m, k)`. -/
def erase : J → String → J
  | .ocons k v rest, key =>
    if k = key then rest.erase key else .ocons k v (rest.erase key)
  | j, _ => j

/-- Go `len(m)` for an object-shaped value. -/
def keyCount : J → Nat
  | .ocons _ _ rest => rest.keyCount + 1
  | _ => 0

/-- The keys of the top-level document (Go map keys, hence no duplicates). -/
def keys : J → List String
  | .ocons k _ rest => k :: rest.keys
  | _ => []

end J

/-- `v.(map[string]any)` on an optional value: `some` exactly when the entry
exists and is an object. -/
def asObj : Option J → Option J
  | some x => if x.isObj then some x else none
  | none => none

/-- The `project` local of `AddWorkroom` before mutation: the existing entry
when it asserts to an object, else the fresh `{"vcs": vcs, "workrooms": {}}`. -/
def addProject0 (doc : J) (parentPath vcs : String) : J :=
  match asObj (doc.get parentPath) with
  | some pj => pj
  | none => J.ocons "vcs" (.s vcs) (J.ocons "workrooms" .onil .onil)

/-- The `workrooms` local of `AddWorkroom`: the project's `workrooms` field
when it asserts to an object, else a fresh empty object. -/
def addWs0 (doc : J) (parentPath vcs : String) : J :=
  match asObj (((addProject0 doc parentPath vcs).set "vcs" (.s vcs)).get "workrooms") with
  | some w => w
  | none => J.onil

/-- `Config.AddWorkroom(parentPath, name, workroomPath, vcs)`: upsert the
project entry (refreshing `vcs`) and insert/overwrite the named workroom. -/
def addWorkroom (doc : J) (parentPath name workroomPath vcs : String) : J :=
  doc.set parentPath
    (((addProject0 doc parentPath vcs).set "vcs" (.s vcs)).set "workrooms"
      ((addWs0 doc parentPath vcs).set name (J.ocons "path" (.s workroomPath) .onil)))

/-- `Config.RemoveWorkroom(parentPath, name)`: delete the entry, pruning the
project when its workroom map becomes empty; leaves the document alone when
the project entry or its `workrooms` field is not an object. -/
def removeWorkroom (doc : J) (parentPath name : String) : J :=
  match asObj (doc.get parentPath) with
  | none => doc
  | some project =>
    match asObj (project.get "workrooms") with
    | none => doc
    | some workrooms =>
      let w' := workrooms.erase name
      if w'.keyCount = 0 then doc.erase parentPath
      else doc.set parentPath (project.set "workrooms" w')

/-- The inner loop of `FindCurrentProject`: does some workroom entry of
`project` store `path == cwd`? -/
def wsHasPath : J → String → Bool
  | .ocons _ info rest, cwd =>
    (info.isObj && info.get "path" = some (.s cwd)) || wsHasPath rest cwd
  | _, _ => false

/-- Does a project value own a workroom at `cwd`? (`workrooms` must assert to
an object.) -/
def ownsWr (project : J) (cwd : String) : Bool :=
  match asObj (project.get "workrooms") with
  | none => false
  | some ws => wsHasPath ws cwd

/-- The `for projectPath, v := range data` scan of `FindCurrentProject`,
determinised to document order. -/
def scanDoc : J → String → Option (String × J)
  | .ocons pp v rest, cwd =>
    if v.isObj && ownsWr v cwd then some (pp, v) else scanDoc rest cwd
  | _, _ => none

/-- `Config.FindCurrentProject(cwd)`, returning `(projectPath, projectData,
found)`. -/
def findCurrentProject (doc : J) (cwd : String) : String × Option J × Bool :=
  match asObj (doc.get cwd) with
  | some project => (cwd, some project, true)
  | none =>
    match scanDoc doc cwd with
    | some (pp, project) => (pp, some project, true)
    | none => (cwd, none, false)

/-- The workrooms object of a project entry (`onil` when the project or its
`workrooms` field is absent or not an object). -/
def projWs (doc : J) (p : String) : J :=
  match asObj (doc.get p) with
  | none => J.onil
  | some project =>
    match asObj (project.get "workrooms") with
    | none => J.onil
    | some w => w

/-- The stored path of workroom `n` under project `p`, when present. -/
def wrPathOf (doc : J) (p n : String) : Option J :=
  match (projWs doc p).get n with
  | none => none
  | some info => info.get "path"

/-! ## Lifecycle orchestrator (`internal/workroom/workroom.go`)

`Service.Create`, `Service.Delete` and `deleteByName` are modelled as
functions from a `World` (the outcomes the file system, subprocesses, config
store, prompt and random streams would deliver) to a result plus a trace of
the observable actions the code performs, in program order. The model fixes
`Verbose = false` (so `sayStatus` prints nothing) and abstracts
`ui.DisplayPath` as an oracle. -/

/-- Outcome of an `os.Stat` call: success (`present`), `os.IsNotExist`, or
another error. -/
inductive StatR where
  | present
  | notExist
  | errOther
deriving DecidableEq, Repr

/-- A VCS backend as the orchestrator drives it: its type, label, and the
argv of the subprocess each operation runs (from git.go / jj.go). -/
structure BackendM where
  type : VT
  label : String
  listArgv : List String
  createArgv : String → String → List String
  deleteArgv : String → String → List String

/-- The Git backend (git.go). `Delete` removes the worktree and never touches
the branch. -/
def gitBackend : BackendM where
  type := .git
  label := "Git worktree"
  listArgv := ["git", "worktree", "list", "--porcelain"]
  createArgv := fun vcsName path => ["git", "worktree", "add", "-b", vcsName, path]
  deleteArgv := fun _ path => ["git", "worktree", "remove", path, "--force"]

/-- The JJ backend (jj.go). `Delete` forgets the workspace by name. -/
def jjBackend : BackendM where
  type := .jj
  label := "JJ workspace"
  listArgv := ["jj", "workspace", "list", "--color", "never"]
  createArgv := fun vcsName path => ["jj", "workspace", "add", path, "--name", vcsName]
  deleteArgv := fun vcsName _ => ["jj", "workspace", "forget", vcsName]

/-- Observable actions of the orchestrator, in program order. -/
inductive Ev where
  | statQ (path : String)
  | detectQ
  | existsQ (argv : List String) (name : String)
  | runCmd (argv : List String)
  | mkdirAll (path : String)
  | removeAll (path : String)
  | cfgAdd (proj name path vcsT : String)
  | cfgRemove (proj name : String)
  | scriptRun (kind spath wrdir : String)
  | promptC
  | out (s : String)
deriving DecidableEq, Repr

/-- Events that mutate state (subprocess side effects, config writes,
directory creation/removal, script execution). -/
def Ev.isMut : Ev → Bool
  | .runCmd _ => true
  | .mkdirAll _ => true
  | .removeAll _ => true
  | .cfgAdd _ _ _ _ => true
  | .cfgRemove _ _ => true
  | .scriptRun _ _ _ => true
  | _ => false

/-- The environment a `Service` invocation runs in: flag values, what each
file-system probe and collaborator call would return, and the random streams
feeding name generation. -/
structure World where
  pretend : Bool
  stat : String → StatR
  detectOk : Bool
  backend : BackendM
  workroomsDir : String
  displayPath : String → String
  bExists : String → Except String Bool
  confirmAns : Except String Bool
  vcsCreateR : Except String String
  vcsDeleteR : Except String String
  mkdirR : Except String Unit
  cfgAddR : Except String Unit
  cfgRemoveR : Except String Unit
  setupR : Except String String
  teardownR : Except String String
  removeAllOk : Bool
  gen : Nat → String
  suffix : Nat → Fin 90
  fuel : Nat

/-- Errors of the orchestrator (`internal/errs` sentinels plus wrapped
failures). A user decline is not an error. -/
inductive WErr where
  | inWorkroom
  | unsupportedVCS
  | invalidName (n : String)
  | alreadyExists (label n : String)
  | dirExists (p : String)
  | notFound (label n : String)
  | confirmMismatch (c n : String)
  | ioErr (m : String)
  | scriptErr (m : String)
  | cfgErr (m : String)
deriving DecidableEq, Repr

/-- `filepath.Join` for the paths the orchestrator builds. -/
def joinP (a b : String) : String := a ++ "/" ++ b

/-- `Service.vcsName`. -/
def vcsNameOf (name : String) : String := "workroom/" ++ name

/-- `Service.workroomPath`. -/
def wrPathW (w : World) (name : String) : String := joinP w.workroomsDir name

/-- `strings.TrimSpace` (ASCII whitespace). -/
def trimSpace (s : String) : String :=
  String.mk (((s.toList.dropWhile isGoSpace).reverse.dropWhile isGoSpace).reverse)

/-! ### generateUniqueName -/

/-- One candidate check in `generateUniqueName`: backend existence first, and
only when the backend reports non-existence, `os.Stat` on the target path
(passing only on `os.IsNotExist`). Returns whether the candidate is usable. -/
def genTry (w : World) (name : String) : Except String Bool × List Ev :=
  match w.bExists name with
  | .error e => (.error e, [.existsQ w.backend.listArgv name])
  | .ok ex =>
    if ex then (.ok false, [.existsQ w.backend.listArgv name])
    else
      (.ok (w.stat (wrPathW w name) = .notExist),
       [.existsQ w.backend.listArgv name, .statQ (wrPathW w name)])

/-- The candidate predicate `genTry` decides (no backend entry, no directory). -/
def passes (w : World) (name : String) : Prop :=
  w.bExists name = .ok false ∧ w.stat (wrPathW w name) = .notExist

/-- The `for range 5` loop: `cnt` remaining iterations, the next one using
the `i`-th generator output; returns the first usable candidate and threads
`lastName`. -/
def genPhase1 (w : World) : Nat → Nat → String → Except String (Option String) × String × List Ev
  | _, 0, last => (.ok none, last, [])
  | i, cnt + 1, _ =>
    match genTry w (w.gen i) with
    | (.error e, evs) => (.error e, w.gen i, evs)
    | (.ok true, evs) => (.ok (some (w.gen i)), w.gen i, evs)
    | (.ok false, evs) =>
      match genPhase1 w (i + 1) cnt (w.gen i) with
      | (r, last', evs') => (r, last', evs ++ evs')

/-- The unbounded fallback loop, with explicit fuel (`none` = still looping):
append `-NN` for a random `NN ∈ [10, 99]` to `last` until a combination is
unused. `j` indexes the random stream. -/
def genPhase2 (w : World) (last : String) : Nat → Nat → Option (Except String String) × List Ev
  | _, 0 => (none, [])
  | j, n + 1 =>
    match genTry w (last ++ "-" ++ toString ((w.suffix j).val + 10)) with
    | (.error e, evs) => (some (.error e), evs)
    | (.ok true, evs) => (some (.ok (last ++ "-" ++ toString ((w.suffix j).val + 10))), evs)
    | (.ok false, evs) =>
      match genPhase2 w last (j + 1) n with
      | (r, evs') => (r, evs ++ evs')

/-- `Service.generateUniqueName`. -/
def genUniqueM (w : World) : Option (Except String String) × List Ev :=
  match genPhase1 w 0 5 "" with
  | (.error e, _, evs) => (some (.error e), evs)
  | (.ok (some n), _, evs) => (some (.ok n), evs)
  | (.ok none, last, evs) =>
    let (r, evs') := genPhase2 w last 0 w.fuel
    (r, evs ++ evs')

/-! ### deleteByName and Delete -/

/-- The teardown-script portion of `deleteByName`: stat the script, and when
present and not in dry-run, execute it from the workroom directory. Returns
the captured output. -/
def teardownStep (w : World) (dir wrPath : String) : Except WErr String × List Ev :=
  let tpath := joinP (joinP dir "scripts") "workroom_teardown"
  if w.stat tpath = .present then
    if !w.pretend then
      match w.teardownR with
      | .error e => (.error (.scriptErr e), [.statQ tpath, .scriptRun "teardown" tpath wrPath])
      | .ok o => (.ok o, [.statQ tpath, .scriptRun "teardown" tpath wrPath])
    else (.ok "", [.statQ tpath])
  else (.ok "", [.statQ tpath])

/-- `Service.deleteByName(dir, name)`: teardown script, backend `Delete`,
JJ-only leftover-directory cleanup (`os.RemoveAll`, result discarded), config
entry removal, then reporting. -/
def deleteByNameM (w : World) (dir name : String) : Except WErr Unit × List Ev :=
  let wrP := wrPathW w name
  match teardownStep w dir wrP with
  | (.error e, evs) => (.error e, evs)
  | (.ok tout, evs0) =>
    let delEvs :=
      if !w.pretend then [Ev.runCmd (w.backend.deleteArgv (vcsNameOf name) wrP)] else []
    let delRes : Except WErr Unit :=
      if !w.pretend then
        match w.vcsDeleteR with
        | .error e => .error (.ioErr ("failed to delete workspace: " ++ e))
        | .ok _ => .ok ()
      else .ok ()
    match delRes with
    | .error e => (.error e, evs0 ++ delEvs)
    | .ok _ =>
      let cleanEvs :=
        if w.backend.type = VT.jj then
          if w.stat wrP = .present then
            if !w.pretend then [Ev.statQ wrP, Ev.removeAll wrP] else [Ev.statQ wrP]
          else [Ev.statQ wrP]
        else []
      let cfgEvs := if !w.pretend then [Ev.cfgRemove dir name] else []
      let cfgRes : Except WErr Unit :=
        if !w.pretend then
          match w.cfgRemoveR with
          | .error e => .error (.cfgErr e)
          | .ok _ => .ok ()
        else .ok ()
      match cfgRes with
      | .error e => (.error e, evs0 ++ delEvs ++ cleanEvs ++ cfgEvs)
      | .ok _ =>
        let doneEvs := [Ev.out ("Workroom '" ++ name ++ "' deleted successfully.")]
        let noteEvs :=
          if w.backend.type = VT.git then
            [Ev.out "",
             Ev.out ("Note: Git branch '" ++ vcsNameOf name ++ "' was not deleted."),
             Ev.out ("      Delete manually with `git branch -D " ++ vcsNameOf name ++ "` if needed.")]
          else []
        let toutEvs :=
          if tout ≠ "" then
            [Ev.out "", Ev.out "Teardown script output:", Ev.out (trimSpace tout), Ev.out ""]
          else []
        (.ok (), evs0 ++ delEvs ++ cleanEvs ++ cfgEvs ++ doneEvs ++ noteEvs ++ toutEvs)

/-- `Service.Delete(dir, name, confirmValue)`: in-workroom guard, name
validation, VCS detection, then (unless dry-run) existence verification and
confirmation resolution before `deleteByName`. -/
def deleteM (w : World) (dir name confirmValue : String) : Except WErr Unit × List Ev :=
  let marker := joinP dir ".Workroom"
  let evs0 := [Ev.statQ marker]
  if w.stat marker = .present then (.error .inWorkroom, evs0)
  else if !validName name then (.error (.invalidName name), evs0)
  else
    let evs1 := evs0 ++ [Ev.detectQ]
    if !w.detectOk then (.error .unsupportedVCS, evs1)
    else
      if !w.pretend then
        let evs2 := evs1 ++ [Ev.existsQ w.backend.listArgv name]
        match w.bExists name with
        | .error e => (.error (.ioErr e), evs2)
        | .ok ex =>
          if !ex then (.error (.notFound w.backend.label name), evs2)
          else
            if confirmValue ≠ "" then
              if confirmValue ≠ name then
                (.error (.confirmMismatch confirmValue name), evs2)
              else
                let (r, evs) := deleteByNameM w dir name
                (r, evs2 ++ evs)
            else
              let evs3 := evs2 ++ [Ev.promptC]
              match w.confirmAns with
              | .error e => (.error (.ioErr e), evs3)
              | .ok false =>
                (.ok (), evs3 ++ [Ev.out ("Aborting. Workroom '" ++ name ++ "' was not deleted.")])
              | .ok true =>
                let (r, evs) := deleteByNameM w dir name
                (r, evs3 ++ evs)
      else
        let (r, evs) := deleteByNameM w dir name
        (r, evs1 ++ evs)

/-! ### Create -/

/-- The tail of `Service.Create` after a unique name is resolved and the
non-dry-run re-verification passed: directory creation, backend `Create`,
config entry, setup script, reporting. -/
def createRest (w : World) (dir name : String) : Except WErr Unit × List Ev :=
  let wrP := wrPathW w name
  let mkEvs := if !w.pretend then [Ev.mkdirAll w.workroomsDir] else []
  let mkRes : Except WErr Unit :=
    if !w.pretend then
      match w.mkdirR with
      | .error e => .error (.ioErr e)
      | .ok _ => .ok ()
    else .ok ()
  match mkRes with
  | .error e => (.error e, mkEvs)
  | .ok _ =>
    let crEvs :=
      if !w.pretend then [Ev.runCmd (w.backend.createArgv (vcsNameOf name) wrP)] else []
    let crRes : Except WErr Unit :=
      if !w.pretend then
        match w.vcsCreateR with
        | .error e => .error (.ioErr ("failed to create workspace: " ++ e))
        | .ok _ => .ok ()
      else .ok ()
    match crRes with
    | .error e => (.error e, mkEvs ++ crEvs)
    | .ok _ =>
      let cfgEvs := if !w.pretend then [Ev.cfgAdd dir name wrP (if w.backend.type = VT.jj then "jj" else "git")] else []
      let cfgRes : Except WErr Unit :=
        if !w.pretend then
          match w.cfgAddR with
          | .error e => .error (.cfgErr e)
          | .ok _ => .ok ()
        else .ok ()
      match cfgRes with
      | .error e => (.error e, mkEvs ++ crEvs ++ cfgEvs)
      | .ok _ =>
        let spath := joinP (joinP dir "scripts") "workroom_setup"
        let setupProbe := [Ev.statQ spath]
        let setupEvs :=
          if w.stat spath = .present then
            if !w.pretend then [Ev.scriptRun "setup" spath wrP] else []
          else []
        let setupRes : Except WErr String :=
          if w.stat spath = .present && !w.pretend then
            match w.setupR with
            | .error e => .error (.scriptErr e)
            | .ok o => .ok o
          else .ok ""
        match setupRes with
        | .error e => (.error e, mkEvs ++ crEvs ++ cfgEvs ++ setupProbe ++ setupEvs)
        | .ok sout =>
          let doneEvs :=
            [Ev.out "",
             Ev.out ("Workroom '" ++ name ++ "' created successfully at " ++ w.displayPath wrP ++ "."),]
          let soutEvs :=
            if sout ≠ "" then [Ev.out "Setup script output:", Ev.out (trimSpace sout)] else []
          (.ok (), mkEvs ++ crEvs ++ cfgEvs ++ setupProbe ++ setupEvs ++ doneEvs ++ soutEvs ++ [Ev.out ""])

/-- `Service.Create(dir)`: in-workroom guard, VCS detection, unique-name
generation, (unless dry-run) defensive re-verification, then `createRest`.
`none` models the unbounded fallback loop still running (fuel exhausted). -/
def createM (w : World) (dir : String) : Option (Except WErr Unit) × List Ev :=
  let marker := joinP dir ".Workroom"
  let evs0 := [Ev.statQ marker]
  if w.stat marker = .present then (some (.error .inWorkroom), evs0)
  else
    let evs1 := evs0 ++ [Ev.detectQ]
    if !w.detectOk then (some (.error .unsupportedVCS), evs1)
    else
      match genUniqueM w with
      | (none, gevs) => (none, evs1 ++ gevs)
      | (some (.error e), gevs) => (some (.error (.ioErr e)), evs1 ++ gevs)
      | (some (.ok name), gevs) =>
        let pre := evs1 ++ gevs
        let wrP := wrPathW w name
        if !w.pretend then
          match w.bExists name with
          | .error e => (some (.error (.ioErr e)), pre ++ [Ev.existsQ w.backend.listArgv name])
          | .ok true =>
            (some (.error (.alreadyExists w.backend.label name)),
             pre ++ [Ev.existsQ w.backend.listArgv name])
          | .ok false =>
            if w.stat wrP = .present then
              (some (.error (.dirExists wrP)),
               pre ++ [Ev.existsQ w.backend.listArgv name, Ev.statQ wrP])
            else
              let (r, evs) := createRest w dir name
              (some r, pre ++ [Ev.existsQ w.backend.listArgv name, Ev.statQ wrP] ++ evs)
        else
          let (r, evs) := createRest w dir name
          (some r, pre ++ evs)

/-! ## Theorems -/

/-! ### C7: VCS detection priority -/

/-- C7: `Detect` returns the JJ backend whenever `.jj` exists as a directory,
regardless of `.git`; returns the Git backend when only `.git` is present;
and fails with `UnsupportedVCS` when neither marker is present. -/
theorem detect_priority :
    (∀ gitStat : Bool, DetectM (some true) gitStat = .ok .jj)
    ∧ DetectM none true = .ok .git
    ∧ DetectM none false = .error () := by
  refine ⟨fun gitStat => rfl, rfl, rfl⟩

/-! ### C9: workroom-name validation -/

theorem validTail_all_nameChar {l : List Char} (h : validTail l = true) :
    ∀ x ∈ l, isNameChar x = true := by
  induction l with
  | nil => intro x hx; cases hx
  | cons c rest ih =>
    intro x hx
    cases rest with
    | nil =>
      simp only [validTail] at h
      rcases List.mem_cons.mp hx with hx | hx
      · rw [hx]; simp only [isNameChar, h, Bool.true_or]
      · cases hx
    | cons d t =>
      simp only [validTail, Bool.and_eq_true] at h
      rcases List.mem_cons.mp hx with hx | hx
      · rw [hx]; exact h.1
      · exact ih h.2 x hx

theorem validTail_getLast {l : List Char} (h : validTail l = true) (hne : l ≠ []) :
    isAsciiAlnum (l.getLast hne) = true := by
  induction l with
  | nil => exact absurd rfl hne
  | cons c rest ih =>
    cases rest with
    | nil => simpa [validTail, List.getLast] using h
    | cons d t =>
      simp only [validTail, Bool.and_eq_true] at h
      simpa [List.getLast] using ih h.2 (by simp)

theorem validTail_of_nameChars {l : List Char} (hall : ∀ x ∈ l, isNameChar x = true)
    (hlast : ∀ hne : l ≠ [], isAsciiAlnum (l.getLast hne) = true) :
    validTail l = true := by
  induction l with
  | nil => rfl
  | cons c rest ih =>
    cases rest with
    | nil => simpa [validTail, List.getLast] using hlast (by simp)
    | cons d t =>
      simp only [validTail, Bool.and_eq_true]
      refine ⟨hall c (by simp), ih (fun x hx => hall x (by simp [hx])) ?_⟩
      intro hne
      simpa [List.getLast] using hlast (by simp)

/-- C9: every string matching `^[A-Za-z0-9]([A-Za-z0-9_-]*[A-Za-z0-9])?$` is
accepted; any string with a character outside `[A-Za-z0-9_-]`, or starting or
ending with `-` or `_`, is rejected; and `Delete` rejects an invalid name
with `InvalidName` after only the in-workroom stat, before any backend or
config action. -/
theorem name_validation :
    (∀ (c : Char) (rest : List Char),
       isAsciiAlnum c = true →
       isAsciiAlnum ((c :: rest).getLast (by simp)) = true →
       (∀ x ∈ c :: rest, isNameChar x = true) →
       validName (String.mk (c :: rest)) = true)
    ∧ (∀ s : String, (∃ x ∈ s.toList, isNameChar x = false) → validName s = false)
    ∧ (∀ s : String,
        (∃ c, (s.toList.head? = some c ∨ s.toList.getLast? = some c) ∧
          (c = '-' ∨ c = '_')) → validName s = false)
    ∧ (∀ (w : World) (dir name cv : String),
        w.stat (joinP dir ".Workroom") ≠ .present →
        validName name = false →
        deleteM w dir name cv = (.error (.invalidName name), [Ev.statQ (joinP dir ".Workroom")])) := by
  refine ⟨?_, ?_, ?_, ?_⟩
  · intro c rest hc hlast hall
    show (isAsciiAlnum c && validTail rest) = true
    rw [Bool.and_eq_true]
    refine ⟨hc, validTail_of_nameChars (fun x hx => hall x (by simp [hx])) ?_⟩
    intro hne
    cases rest with
    | nil => exact absurd rfl hne
    | cons d t => simpa [List.getLast] using hlast
  · intro s hbad
    rcases hbad with ⟨x, hx, hbadx⟩
    by_contra hv
    rw [Bool.not_eq_false] at hv
    unfold validName at hv
    rcases hl : s.toList with _ | ⟨c, rest⟩
    · rw [hl] at hv; exact absurd hv (by simp)
    · rw [hl] at hv hx
      rw [Bool.and_eq_true] at hv
      rcases List.mem_cons.mp hx with hx | hx
      · rw [hx] at hbadx
        simp [isNameChar, hv.1] at hbadx
      · have := validTail_all_nameChar hv.2 x hx
        rw [this] at hbadx; exact absurd hbadx (by simp)
  · intro s hend
    rcases hend with ⟨c, hc, hdash⟩
    by_contra hv
    rw [Bool.not_eq_false] at hv
    unfold validName at hv
    rcases hl : s.toList with _ | ⟨c0, rest⟩
    · rw [hl] at hv; exact absurd hv (by simp)
    · rw [hl] at hv hc
      rw [Bool.and_eq_true] at hv
      have halnum : isAsciiAlnum c = true := by
        rcases hc with hc | hc
        · simp only [List.head?] at hc
          rw [show c = c0 by exact (Option.some.injEq _ _ ▸ hc).symm]
          exact hv.1
        · cases rest with
          | nil =>
            simp only [List.getLast?] at hc
            rw [show c = c0 by exact (Option.some.injEq _ _ ▸ hc).symm]
            exact hv.1
          | cons d t =>
            have hgl : (c0 :: d :: t).getLast (by simp) = c := by
              have := List.getLast?_eq_getLast (c0 :: d :: t) (by simp)
              rw [this] at hc
              exact (Option.some.injEq _ _ ▸ hc)
            have hlast := validTail_getLast hv.2 (l := d :: t) (by simp)
            have hgl2 : (c0 :: d :: t).getLast (by simp) = (d :: t).getLast (by simp) := by
              simp [List.getLast]
            rw [hgl2.symm, hgl] at hlast
            exact hlast
      rcases hdash with h | h <;> rw [h] at halnum <;> exact absurd halnum (by decide)
  · intro w dir name cv hm hv
    unfold deleteM
    have hms : (w.stat (joinP dir ".Workroom") = StatR.present) = False := by
      simp [hm]
    simp [hms, hv]

/-! ### C4: git worktree parsing on paths with spaces -/

/-- The exact porcelain output of the repository's own
`TestGitWorktreePathsWithSpaces` test. -/
def spacesTestOutput : String :=
  "worktree /Users/foo/my project\nHEAD cbace1f043eee2836c7b8494797dfe49f6985716\nbranch refs/heads/master\n\nworktree /Users/foo/my workrooms/feature one\nHEAD abc123\nbranch refs/heads/workroom/feature-one\n"

set_option maxRecDepth 20000 in
/-- C4 (failing input): on the repository's own space-path test input,
`Git.ListWorkrooms` returns `["my", "my"]` — both worktree paths are
truncated at the first space (so the querying directory is not excluded and
the listed name is wrong), where the test expects `["feature one"]`; and
`WorkroomExists` misses the workroom actually named `feature one`. -/
theorem git_parse_spaces_failing_input :
    gitListWorkrooms spacesTestOutput "/Users/foo/my project" = ["my", "my"]
    ∧ gitListWorkrooms spacesTestOutput "/Users/foo/my project" ≠ ["feature one"]
    ∧ gitWorkroomExists spacesTestOutput "/Users/foo/my project" "feature one" = false := by
  refine ⟨by decide, by decide, by decide⟩

/-! ### Delete-flow lemmas -/

theorem teardownStep_no_runCmd (w : World) (dir p : String) (argv : List String) :
    Ev.runCmd argv ∉ (teardownStep w dir p).2 := by
  unfold teardownStep
  rcases h : w.teardownR with e | o <;>
    by_cases h1 : w.stat (joinP (joinP dir "scripts") "workroom_teardown") = .present <;>
    by_cases h2 : (!w.pretend) = true <;>
    simp [h, h1, h2]

/-- Closed form of `deleteByName` when the teardown, backend-delete and
config-removal steps all succeed outside dry-run: the trace is exactly the
teardown probe/run, the backend delete command, the JJ-only directory
cleanup, the config removal, and the report lines, in that order. -/
theorem deleteByNameM_success (w : World) (dir name tout dout : String)
    (hp : w.pretend = false)
    (ht : (teardownStep w dir (wrPathW w name)).1 = .ok tout)
    (hd : w.vcsDeleteR = .ok dout)
    (hc : w.cfgRemoveR = .ok ()) :
    deleteByNameM w dir name =
      (.ok (),
       (teardownStep w dir (wrPathW w name)).2
         ++ [Ev.runCmd (w.backend.deleteArgv (vcsNameOf name) (wrPathW w name))]
         ++ (if w.backend.type = VT.jj then
               if w.stat (wrPathW w name) = .present then
                 [Ev.statQ (wrPathW w name), Ev.removeAll (wrPathW w name)]
               else [Ev.statQ (wrPathW w name)]
             else [])
         ++ [Ev.cfgRemove dir name]
         ++ [Ev.out ("Workroom '" ++ name ++ "' deleted successfully.")]
         ++ (if w.backend.type = VT.git then
               [Ev.out "",
                Ev.out ("Note: Git branch '" ++ vcsNameOf name ++ "' was not deleted."),
                Ev.out ("      Delete manually with `git branch -D " ++ vcsNameOf name ++ "` if needed.")]
             else [])
         ++ (if tout ≠ "" then
               [Ev.out "", Ev.out "Teardown script output:", Ev.out (trimSpace tout), Ev.out ""]
             else [])) := by
  rcases hte : teardownStep w dir (wrPathW w name) with ⟨r, evs0⟩
  rw [hte] at ht
  simp only at ht
  subst ht
  unfold deleteByNameM
  simp only [hte]
  simp [hp, hd, hc]

/-- C2: in every named delete whose teardown phase succeeds, the teardown
script (when present) runs strictly before the backend delete; when the
backend delete and config removal succeed the full order is teardown, backend
delete, JJ-only directory cleanup, config removal, report. For the Git
backend the report contains the literal branch name `workroom/<name>` in the
not-deleted note, and the only subprocess run is `git worktree remove`; no
`git branch` command is ever invoked. -/
theorem delete_order_and_git_note (w : World) (dir name tout dout : String)
    (hp : w.pretend = false)
    (ht : (teardownStep w dir (wrPathW w name)).1 = .ok tout)
    (hd : w.vcsDeleteR = .ok dout)
    (hc : w.cfgRemoveR = .ok ()) :
    (w.stat (joinP (joinP dir "scripts") "workroom_teardown") = .present →
      (teardownStep w dir (wrPathW w name)).2 =
        [Ev.statQ (joinP (joinP dir "scripts") "workroom_teardown"),
         Ev.scriptRun "teardown" (joinP (joinP dir "scripts") "workroom_teardown") (wrPathW w name)])
    ∧ deleteByNameM w dir name =
      (.ok (),
       (teardownStep w dir (wrPathW w name)).2
         ++ [Ev.runCmd (w.backend.deleteArgv (vcsNameOf name) (wrPathW w name))]
         ++ (if w.backend.type = VT.jj then
               if w.stat (wrPathW w name) = .present then
                 [Ev.statQ (wrPathW w name), Ev.removeAll (wrPathW w name)]
               else [Ev.statQ (wrPathW w name)]
             else [])
         ++ [Ev.cfgRemove dir name]
         ++ [Ev.out ("Workroom '" ++ name ++ "' deleted successfully.")]
         ++ (if w.backend.type = VT.git then
               [Ev.out "",
                Ev.out ("Note: Git branch '" ++ vcsNameOf name ++ "' was not deleted."),
                Ev.out ("      Delete manually with `git branch -D " ++ vcsNameOf name ++ "` if needed.")]
             else [])
         ++ (if tout ≠ "" then
               [Ev.out "", Ev.out "Teardown script output:", Ev.out (trimSpace tout), Ev.out ""]
             else []))
    ∧ vcsNameOf name = "workroom/" ++ name
    ∧ (w.backend = gitBackend →
        Ev.out ("Note: Git branch '" ++ vcsNameOf name ++ "' was not deleted.")
          ∈ (deleteByNameM w dir name).2)
    ∧ (w.backend = gitBackend →
        ∀ argv, Ev.runCmd argv ∈ (deleteByNameM w dir name).2 →
          argv = ["git", "worktree", "remove", wrPathW w name, "--force"]
          ∧ argv.take 2 ≠ ["git", "branch"]) := by
  have hmain := deleteByNameM_success w dir name tout dout hp ht hd hc
  refine ⟨?_, hmain, rfl, ?_, ?_⟩
  · intro hscript
    unfold teardownStep
    rcases hr : w.teardownR with e | o
    · exfalso
      unfold teardownStep at ht
      rw [hr] at ht
      simp [hscript, hp] at ht
    · simp [hscript, hp]
  · intro hb
    rw [hmain]
    simp [hb, gitBackend]
  · intro hb argv hmem
    rw [hmain] at hmem
    simp [hb, gitBackend] at hmem
    rcases hmem with hmem | hmem
    · exact absurd hmem (teardownStep_no_runCmd w dir (wrPathW w name) argv)
    · rw [hmem]
      exact ⟨rfl, by simp⟩

/-- C3: a non-empty `--confirm` token different from the workroom name is a
hard error (`confirmMismatch`, not a plain decline), raised after only the
read-only guard checks: no teardown script, no backend delete, no config
write. -/
theorem delete_confirm_mismatch (w : World) (dir name cv : String)
    (hp : w.pretend = false)
    (hm : w.stat (joinP dir ".Workroom") ≠ .present)
    (hv : validName name = true)
    (hdet : w.detectOk = true)
    (hex : w.bExists name = .ok true)
    (hcv : cv ≠ "") (hne : cv ≠ name) :
    deleteM w dir name cv =
      (.error (.confirmMismatch cv name),
       [Ev.statQ (joinP dir ".Workroom"), Ev.detectQ, Ev.existsQ w.backend.listArgv name])
    ∧ (deleteM w dir name cv).1 ≠ .ok ()
    ∧ ∀ e ∈ (deleteM w dir name cv).2, e.isMut = false := by
  have hmain : deleteM w dir name cv =
      (.error (.confirmMismatch cv name),
       [Ev.statQ (joinP dir ".Workroom"), Ev.detectQ, Ev.existsQ w.backend.listArgv name]) := by
    unfold deleteM
    simp [hp, hm, hv, hdet, hex, hcv, hne]
  refine ⟨hmain, by rw [hmain]; simp, ?_⟩
  rw [hmain]
  intro e he
  simp only [List.mem_cons, List.not_mem_nil, or_false] at he
  rcases he with h | h | h <;> rw [h] <;> rfl

/-- Whether the workroom directory is still on disk after the trace: it was
present before and either no `RemoveAll` ran or the one that ran failed
(`deleteByName` discards the `os.RemoveAll` result). -/
def dirRemains (w : World) (evs : List Ev) (p : String) : Bool :=
  (w.stat p = .present) && !(evs.contains (Ev.removeAll p) && w.removeAllOk)

/-- C10: for the JJ backend, failure of the leftover-directory removal is
silently ignored: the result of `os.RemoveAll` influences neither the result
nor the trace, the config entry is still removed, success is still reported,
and the directory is still on disk. -/
theorem jj_cleanup_failure_ignored (w : World) (dir name tout dout : String)
    (hp : w.pretend = false)
    (hjj : w.backend.type = VT.jj)
    (hs : w.stat (wrPathW w name) = .present)
    (hra : w.removeAllOk = false)
    (ht : (teardownStep w dir (wrPathW w name)).1 = .ok tout)
    (hd : w.vcsDeleteR = .ok dout)
    (hc : w.cfgRemoveR = .ok ()) :
    (deleteByNameM w dir name).1 = .ok ()
    ∧ Ev.removeAll (wrPathW w name) ∈ (deleteByNameM w dir name).2
    ∧ Ev.cfgRemove dir name ∈ (deleteByNameM w dir name).2
    ∧ Ev.out ("Workroom '" ++ name ++ "' deleted successfully.") ∈ (deleteByNameM w dir name).2
    ∧ dirRemains w (deleteByNameM w dir name).2 (wrPathW w name) = true
    ∧ ∀ b, deleteByNameM { w with removeAllOk := b } dir name = deleteByNameM w dir name := by
  have hmain := deleteByNameM_success w dir name tout dout hp ht hd hc
  refine ⟨by rw [hmain], ?_, ?_, ?_, ?_, ?_⟩
  · rw [hmain]; simp [hjj, hs]
  · rw [hmain]; simp
  · rw [hmain]; simp
  · rw [hmain]
    unfold dirRemains
    simp [hs, hra]
  · intro b
    rfl

/-! ### C1: unique-name generation -/

theorem genTry_true {w : World} {name : String}
    (h : (genTry w name).1 = .ok true) : passes w name := by
  unfold genTry at h
  rcases hb : w.bExists name with e | b
  · rw [hb] at h; simp at h
  · rw [hb] at h
    rcases b with _ | _
    · simp at h
      exact ⟨hb, h⟩
    · simp at h

theorem genTry_false {w : World} {name : String}
    (h : (genTry w name).1 = .ok false) : ¬ passes w name := by
  unfold genTry at h
  rcases hb : w.bExists name with e | b
  · rw [hb] at h; simp at h
  · rw [hb] at h
    rcases b with _ | _
    · simp at h
      intro hp
      exact absurd hp.2 h
    · intro hp
      rcases hp with ⟨h1, h2⟩
      rw [hb] at h1
      exact absurd h1 (by simp)

theorem genPhase1_ok_some (w : World) :
    ∀ (cnt i : Nat) (last n : String),
      (genPhase1 w i cnt last).1 = .ok (some n) →
      ∃ k, i ≤ k ∧ k < i + cnt ∧ n = w.gen k ∧ passes w n ∧
        ∀ j, i ≤ j → j < k → ¬ passes w (w.gen j) := by
  intro cnt
  induction cnt with
  | zero => intro i last n h; simp [genPhase1] at h
  | succ m ih =>
    intro i last n h
    unfold genPhase1 at h
    rcases hg : genTry w (w.gen i) with ⟨r, evs⟩
    rw [hg] at h
    rcases r with e | b
    · simp at h
    rcases b with _ | _
    · -- genTry returned ok false: recurse
      simp only at h
      rcases hrec : genPhase1 w (i + 1) m (w.gen i) with ⟨r', last', evs'⟩
      rw [hrec] at h
      simp only at h
      have hr' : r' = .ok (some n) := h
      rcases ih (i + 1) (w.gen i) n (by rw [hrec]; exact hr') with
        ⟨k, hik, hkm, hn, hpass, hprev⟩
      refine ⟨k, by omega, by omega, hn, hpass, ?_⟩
      intro j hij hjk
      rcases Nat.eq_or_lt_of_le hij with heq | hlt
      · rw [← heq]
        exact genTry_false (by rw [hg])
      · exact hprev j hlt hjk
    · -- genTry returned ok true: found at index i
      simp only at h
      have hn : n = w.gen i := by
        have := h
        simp at this
        exact this.symm
      refine ⟨i, le_refl i, by omega, hn, ?_, ?_⟩
      · rw [hn]; exact genTry_true (by rw [hg])
      · intro j hij hji; omega


theorem genPhase1_ok_none (w : World) :
    ∀ (cnt i : Nat) (last : String),
      (genPhase1 w i cnt last).1 = .ok none →
      ∀ j, i ≤ j → j < i + cnt → ¬ passes w (w.gen j) := by
  intro cnt
  induction cnt with
  | zero => intro i last _ j h1 h2; omega
  | succ m ih =>
    intro i last h j hij hjm
    unfold genPhase1 at h
    rcases hg : genTry w (w.gen i) with ⟨r, evs⟩
    rw [hg] at h
    rcases r with e | b
    · simp at h
    rcases b with _ | _
    · simp only at h
      rcases hrec : genPhase1 w (i + 1) m (w.gen i) with ⟨r', last', evs'⟩
      rw [hrec] at h
      simp only at h
      rcases Nat.eq_or_lt_of_le hij with heq | hlt
      · rw [← heq]
        exact genTry_false (by rw [hg])
      · exact ih (i + 1) (w.gen i) (by rw [hrec]; exact h) j hlt (by omega)
    · simp at h


theorem genPhase1_last (w : World) :
    ∀ (m i : Nat) (last : String),
      (genPhase1 w i (m + 1) last).1 = .ok none →
      (genPhase1 w i (m + 1) last).2.1 = w.gen (i + m) := by
  intro m
  induction m with
  | zero =>
    intro i last h
    unfold genPhase1 at h ⊢
    rcases hg : genTry w (w.gen i) with ⟨r, evs⟩
    rcases r with e | b
    · simp [hg] at h
    rcases b with _ | _
    · simp [hg, genPhase1]
    · simp [hg] at h
  | succ m' ih =>
    intro i last h
    unfold genPhase1 at h ⊢
    rcases hg : genTry w (w.gen i) with ⟨r, evs⟩
    rcases r with e | b
    · simp [hg] at h
    rcases b with _ | _
    · simp only [hg] at h ⊢
      rcases hrec : genPhase1 w (i + 1) (m' + 1) (w.gen i) with ⟨r', last', evs'⟩
      simp only [hrec] at h ⊢
      have := ih (i + 1) (w.gen i) (by rw [hrec]; exact h)
      rw [hrec] at this
      simp only at this
      rw [this]
      congr 1
      omega
    · simp [hg] at h

theorem genPhase2_ok (w : World) (last : String) :
    ∀ (n j : Nat) (c : String),
      (genPhase2 w last j n).1 = some (.ok c) →
      ∃ k, c = last ++ "-" ++ toString ((w.suffix k).val + 10) ∧ passes w c := by
  intro n
  induction n with
  | zero => intro j c h; simp [genPhase2] at h
  | succ m ih =>
    intro j c h
    unfold genPhase2 at h
    rcases hg : genTry w (last ++ "-" ++ toString ((w.suffix j).val + 10)) with ⟨r, evs⟩
    rw [hg] at h
    rcases r with e | b
    · simp at h
    rcases b with _ | _
    · simp only at h
      rcases hrec : genPhase2 w last (j + 1) m with ⟨r', evs'⟩
      rw [hrec] at h
      simp only at h
      exact ih (j + 1) c (by rw [hrec]; exact h)
    · simp only at h
      have hc : c = last ++ "-" ++ toString ((w.suffix j).val + 10) := by
        simp at h
        exact h.symm
      refine ⟨j, hc, ?_⟩
      rw [hc]
      exact genTry_true (by rw [hg])

/-- C1: whenever the unique-name generation terminates with a name, either it
is one of the (up to five) generator outputs, the first one passing both the
backend-existence and the target-path checks, or all five failed and the name
is the fifth output with a random two-digit suffix in `[10, 99]` appended,
itself passing both checks. -/
theorem unique_name_generation (w : World) (r : String)
    (h : (genUniqueM w).1 = some (.ok r)) :
    (∃ i, i < 5 ∧ r = w.gen i ∧ passes w r ∧ ∀ j, j < i → ¬ passes w (w.gen j))
    ∨ ((∀ i, i < 5 → ¬ passes w (w.gen i)) ∧ passes w r ∧
       ∃ k, r = w.gen 4 ++ "-" ++ toString ((w.suffix k).val + 10) ∧
            10 ≤ (w.suffix k).val + 10 ∧ (w.suffix k).val + 10 ≤ 99) := by
  unfold genUniqueM at h
  rcases hg : genPhase1 w 0 5 "" with ⟨r1, last, evs⟩
  rw [hg] at h
  rcases r1 with e | op
  · simp at h
  rcases op with _ | n
  · -- all five generator outputs failed; the fallback loop produced r
    right
    simp only at h
    rcases hp2 : genPhase2 w last 0 w.fuel with ⟨r2, evs2⟩
    simp only [hp2] at h
    have hr2 : r2 = some (.ok r) := h
    have hnone : ∀ j, 0 ≤ j → j < 0 + 5 → ¬ passes w (w.gen j) :=
      genPhase1_ok_none w 5 0 "" (by rw [hg])
    have hlast : last = w.gen 4 := by
      have := genPhase1_last w 4 0 "" (by rw [hg])
      rw [hg] at this
      simpa using this
    rcases genPhase2_ok w last w.fuel 0 r (by rw [hp2, hr2]) with ⟨k, hk, hpass⟩
    refine ⟨fun i hi => hnone i (by omega) (by omega), hpass, k, ?_, ?_, ?_⟩
    · rw [← hlast]; exact hk
    · omega
    · have := (w.suffix k).isLt
      omega
  · -- one of the five generator outputs was used
    left
    simp only at h
    have hn : n = r := by simpa using h
    rcases genPhase1_ok_some w 5 0 "" n (by rw [hg]) with ⟨k, _, hk5, hnk, hpass, hprev⟩
    exact ⟨k, by omega, by rw [← hn, hnk], by rw [← hn]; exact hpass,
      fun j hj => hprev j (by omega) hj⟩

/-! ### Concrete worlds for witnesses and counterexamples -/

/-- A concrete environment: a Git-backed project, every probe reporting
"not present", every collaborator succeeding. -/
def baseWorld : World where
  pretend := false
  stat := fun _ => .notExist
  detectOk := true
  backend := gitBackend
  workroomsDir := "/w"
  displayPath := fun p => p
  bExists := fun _ => .ok false
  confirmAns := .ok true
  vcsCreateR := .ok ""
  vcsDeleteR := .ok ""
  mkdirR := .ok ()
  cfgAddR := .ok ()
  cfgRemoveR := .ok ()
  setupR := .ok ""
  teardownR := .ok ""
  removeAllOk := true
  gen := fun _ => "brave-otter"
  suffix := fun _ => ⟨0, by omega⟩
  fuel := 0

theorem unique_name_generation_witness :
    (∃ i, i < 5 ∧ "brave-otter" = baseWorld.gen i ∧ passes baseWorld "brave-otter" ∧
       ∀ j, j < i → ¬ passes baseWorld (baseWorld.gen j))
    ∨ ((∀ i, i < 5 → ¬ passes baseWorld (baseWorld.gen i)) ∧ passes baseWorld "brave-otter" ∧
       ∃ k, "brave-otter" = baseWorld.gen 4 ++ "-" ++ toString ((baseWorld.suffix k).val + 10) ∧
            10 ≤ (baseWorld.suffix k).val + 10 ∧ (baseWorld.suffix k).val + 10 ≤ 99) :=
  unique_name_generation baseWorld "brave-otter" rfl

theorem delete_order_and_git_note_witness :
    Ev.out ("Note: Git branch '" ++ vcsNameOf "foo" ++ "' was not deleted.")
      ∈ (deleteByNameM baseWorld "/p" "foo").2 :=
  (delete_order_and_git_note baseWorld "/p" "foo" "" "" rfl rfl rfl rfl).2.2.2.1 rfl

theorem delete_confirm_mismatch_witness :
    deleteM { baseWorld with bExists := fun _ => Except.ok true } "/p" "foo" "wrong" =
      (.error (.confirmMismatch "wrong" "foo"),
       [Ev.statQ (joinP "/p" ".Workroom"), Ev.detectQ, Ev.existsQ gitBackend.listArgv "foo"]) :=
  (delete_confirm_mismatch { baseWorld with bExists := fun _ => Except.ok true }
    "/p" "foo" "wrong" rfl (by decide) (by decide) rfl rfl (by decide) (by decide)).1

/-- A JJ-backed world where everything exists on disk and `os.RemoveAll`
fails. -/
def jjFailWorld : World :=
  { baseWorld with backend := jjBackend, stat := fun _ => StatR.present, removeAllOk := false }

theorem jj_cleanup_failure_ignored_witness :
    (deleteByNameM jjFailWorld "/p" "foo").1 = .ok ()
    ∧ dirRemains jjFailWorld (deleteByNameM jjFailWorld "/p" "foo").2 (wrPathW jjFailWorld "foo") = true :=
  ⟨(jj_cleanup_failure_ignored jjFailWorld "/p" "foo" "" "" rfl rfl rfl rfl rfl rfl rfl).1,
   (jj_cleanup_failure_ignored jjFailWorld "/p" "foo" "" "" rfl rfl rfl rfl rfl rfl rfl).2.2.2.2.1⟩

/-! ### C8: dry-run mode -/

/-- Whether an event is a backend-existence query. -/
def Ev.isExistsQ : Ev → Bool
  | .existsQ _ _ => true
  | _ => false

theorem genTry_nonmut (w : World) (name : String) :
    ∀ e ∈ (genTry w name).2, e.isMut = false := by
  intro e he
  unfold genTry at he
  rcases hb : w.bExists name with er | b
  · rw [hb] at he
    simp at he
    rw [he]; rfl
  · rw [hb] at he
    rcases b with _ | _
    · simp at he
      rcases he with he | he <;> rw [he] <;> rfl
    · simp at he
      rw [he]; rfl

theorem genPhase1_nonmut (w : World) :
    ∀ (cnt i : Nat) (last : String), ∀ e ∈ (genPhase1 w i cnt last).2.2, e.isMut = false := by
  intro cnt
  induction cnt with
  | zero => intro i last e he; simp [genPhase1] at he
  | succ m ih =>
    intro i last e he
    unfold genPhase1 at he
    rcases hg : genTry w (w.gen i) with ⟨r, evs⟩
    rcases r with er | b
    · simp only [hg] at he
      exact genTry_nonmut w (w.gen i) e (by rw [hg]; exact he)
    rcases b with _ | _
    · simp only [hg] at he
      rcases hrec : genPhase1 w (i + 1) m (w.gen i) with ⟨r', last', evs'⟩
      simp only [hrec, List.mem_append] at he
      rcases he with he | he
      · exact genTry_nonmut w (w.gen i) e (by rw [hg]; exact he)
      · exact ih (i + 1) (w.gen i) e (by rw [hrec]; exact he)
    · simp only [hg] at he
      exact genTry_nonmut w (w.gen i) e (by rw [hg]; exact he)

theorem genPhase2_nonmut (w : World) (last : String) :
    ∀ (n j : Nat), ∀ e ∈ (genPhase2 w last j n).2, e.isMut = false := by
  intro n
  induction n with
  | zero => intro j e he; simp [genPhase2] at he
  | succ m ih =>
    intro j e he
    unfold genPhase2 at he
    rcases hg : genTry w (last ++ "-" ++ toString ((w.suffix j).val + 10)) with ⟨r, evs⟩
    rcases r with er | b
    · simp only [hg] at he
      exact genTry_nonmut w _ e (by rw [hg]; exact he)
    rcases b with _ | _
    · simp only [hg] at he
      rcases hrec : genPhase2 w last (j + 1) m with ⟨r', evs'⟩
      simp only [hrec, List.mem_append] at he
      rcases he with he | he
      · exact genTry_nonmut w _ e (by rw [hg]; exact he)
      · exact ih (j + 1) e (by rw [hrec]; exact he)
    · simp only [hg] at he
      exact genTry_nonmut w _ e (by rw [hg]; exact he)

theorem genUniqueM_nonmut (w : World) :
    ∀ e ∈ (genUniqueM w).2, e.isMut = false := by
  intro e he
  unfold genUniqueM at he
  rcases hg : genPhase1 w 0 5 "" with ⟨r1, last, evs⟩
  rcases r1 with er | op
  · simp only [hg] at he
    exact genPhase1_nonmut w 5 0 "" e (by rw [hg]; exact he)
  rcases op with _ | n
  · simp only [hg] at he
    rcases hp2 : genPhase2 w last 0 w.fuel with ⟨r2, evs2⟩
    simp only [hp2, List.mem_append] at he
    rcases he with he | he
    · exact genPhase1_nonmut w 5 0 "" e (by rw [hg]; exact he)
    · exact genPhase2_nonmut w last w.fuel 0 e (by rw [hp2]; exact he)
  · simp only [hg] at he
    exact genPhase1_nonmut w 5 0 "" e (by rw [hg]; exact he)

/-- In dry-run mode `createRest` only probes for the setup script and prints. -/
theorem createRest_pretend (w : World) (dir name : String) (hp : w.pretend = true) :
    createRest w dir name =
      (.ok (),
       [Ev.statQ (joinP (joinP dir "scripts") "workroom_setup"),
        Ev.out "",
        Ev.out ("Workroom '" ++ name ++ "' created successfully at "
          ++ w.displayPath (wrPathW w name) ++ "."),
        Ev.out ""]) := by
  unfold createRest
  simp [hp]

/-- In dry-run mode `deleteByName` only probes (teardown script, and the
JJ-only directory check) and prints. -/
theorem deleteByNameM_pretend (w : World) (dir name : String) (hp : w.pretend = true) :
    deleteByNameM w dir name =
      (.ok (),
       [Ev.statQ (joinP (joinP dir "scripts") "workroom_teardown")]
         ++ (if w.backend.type = VT.jj then [Ev.statQ (wrPathW w name)] else [])
         ++ [Ev.out ("Workroom '" ++ name ++ "' deleted successfully.")]
         ++ (if w.backend.type = VT.git then
               [Ev.out "",
                Ev.out ("Note: Git branch '" ++ vcsNameOf name ++ "' was not deleted."),
                Ev.out ("      Delete manually with `git branch -D " ++ vcsNameOf name ++ "` if needed.")]
             else [])) := by
  unfold deleteByNameM teardownStep
  simp [hp]

theorem Ev_isMut_statQ (p : String) : (Ev.statQ p).isMut = false := rfl

theorem Ev_isMut_detectQ : Ev.detectQ.isMut = false := rfl

theorem Ev_isMut_existsQ (argv : List String) (n : String) :
    (Ev.existsQ argv n).isMut = false := rfl

theorem Ev_isMut_promptC : Ev.promptC.isMut = false := rfl

theorem Ev_isMut_out (s : String) : (Ev.out s).isMut = false := rfl

/-- C8 (amended): in dry-run mode neither `Create` nor `Delete` performs any
mutating step (no backend create/delete subprocess, no config write, no
directory creation or removal, no script execution), and the in-workroom
guard and VCS detection still execute; however `Delete`'s existence check and
confirmation, and `Create`'s defensive re-verification, are skipped (see the
counterexample), so the dry-run control flow is not a side-effect-free mirror
of the real path. -/
theorem dry_run_frame (w : World) (dir name cv : String) (hp : w.pretend = true) :
    (∀ e ∈ (createM w dir).2, e.isMut = false)
    ∧ (∀ e ∈ (deleteM w dir name cv).2, e.isMut = false)
    ∧ Ev.statQ (joinP dir ".Workroom") ∈ (createM w dir).2
    ∧ Ev.statQ (joinP dir ".Workroom") ∈ (deleteM w dir name cv).2
    ∧ (w.stat (joinP dir ".Workroom") ≠ .present → Ev.detectQ ∈ (createM w dir).2)
    ∧ (w.stat (joinP dir ".Workroom") ≠ .present → validName name = true →
        Ev.detectQ ∈ (deleteM w dir name cv).2) := by
  have hdel : ∀ e ∈ (deleteM w dir name cv).2, e.isMut = false := by
    unfold deleteM
    by_cases h1 : w.stat (joinP dir ".Workroom") = .present
    · simp [h1, Ev_isMut_statQ]
    by_cases h2 : validName name
    · by_cases h3 : w.detectOk
      · simp [h1, h2, h3, hp, deleteByNameM_pretend w dir name hp,
          Ev_isMut_statQ, Ev_isMut_detectQ, Ev_isMut_out]
        intro a ha
        rcases ha with ⟨_, ha⟩ | ha | ⟨_, ha | ha | ha⟩ <;> subst ha <;> rfl
      · simp [h1, h2, h3, hp, Ev_isMut_statQ, Ev_isMut_detectQ]
    · simp [h1, h2, Ev_isMut_statQ]
  have hcre : ∀ e ∈ (createM w dir).2, e.isMut = false := by
    unfold createM
    rcases hgu : genUniqueM w with ⟨r, gevs⟩
    have hg : ∀ e ∈ gevs, e.isMut = false := by
      have h := genUniqueM_nonmut w
      rw [hgu] at h
      exact h
    by_cases h1 : w.stat (joinP dir ".Workroom") = .present
    · simp [h1, Ev_isMut_statQ]
    by_cases h3 : w.detectOk
    · rcases r with _ | r
      · simp [h1, h3, Ev_isMut_statQ, Ev_isMut_detectQ]
        intro e he
        exact hg e he
      rcases r with er | nm
      · simp [h1, h3, Ev_isMut_statQ, Ev_isMut_detectQ]
        intro e he
        exact hg e he
      · simp [h1, h3, hp, createRest_pretend w dir nm hp,
          Ev_isMut_statQ, Ev_isMut_detectQ, Ev_isMut_out]
        intro e he
        rcases he with he | he | he | he | he
        · exact hg e he
        · subst he; rfl
        · subst he; rfl
        · subst he; rfl
        · subst he; rfl
    · simp [h1, h3, Ev_isMut_statQ, Ev_isMut_detectQ]
  refine ⟨hcre, hdel, ?_, ?_, ?_, ?_⟩
  · unfold createM
    rcases hgu : genUniqueM w with ⟨r, gevs⟩
    by_cases h1 : w.stat (joinP dir ".Workroom") = .present
    · simp [h1]
    by_cases h3 : w.detectOk
    · rcases r with _ | r
      · simp [h1, h3]
      rcases r with er | nm
      · simp [h1, h3]
      · simp [h1, h3, hp]
    · simp [h1, h3]
  · unfold deleteM
    by_cases h1 : w.stat (joinP dir ".Workroom") = .present
    · simp [h1]
    by_cases h2 : validName name
    · by_cases h3 : w.detectOk
      · simp [h1, h2, h3, hp, deleteByNameM_pretend w dir name hp]
      · simp [h1, h2, h3, hp]
    · simp [h1, h2]
  · intro hm
    unfold createM
    rcases hgu : genUniqueM w with ⟨r, gevs⟩
    by_cases h3 : w.detectOk
    · rcases r with _ | r
      · simp [hm, h3]
      rcases r with er | nm
      · simp [hm, h3]
      · simp [hm, h3, hp]
    · simp [hm, h3]
  · intro hm h2
    unfold deleteM
    by_cases h3 : w.detectOk
    · simp [hm, h2, h3, hp, deleteByNameM_pretend w dir name hp]
    · simp [hm, h2, h3, hp]

/-- C8 (counterexample): in dry-run mode a Git-backed `Delete` of a workroom
whose backend entry does not exist succeeds without ever performing the
backend existence check, while the real path performs it and fails with
not-found — dry-run does not execute every read-only guard check and its
control flow differs from the real path beyond side effects. -/
theorem dryrun_skips_existence_check :
    (deleteM { baseWorld with pretend := true } "/p" "foo" "").1 = .ok ()
    ∧ (∀ e ∈ (deleteM { baseWorld with pretend := true } "/p" "foo" "").2, e.isExistsQ = false)
    ∧ Ev.existsQ gitBackend.listArgv "foo" ∈ (deleteM baseWorld "/p" "foo" "").2
    ∧ (deleteM baseWorld "/p" "foo" "").1 = .error (.notFound "Git worktree" "foo") :=
  ⟨rfl, by decide, by decide, rfl⟩

theorem dry_run_frame_witness :
    Ev.statQ (joinP "/p" ".Workroom")
      ∈ (deleteM { baseWorld with pretend := true } "/p" "foo" "").2 :=
  (dry_run_frame { baseWorld with pretend := true } "/p" "foo" "" rfl).2.2.2.1

/-! ### Association-list lemmas for the config store -/

theorem J.asObj_some {x : J} (h : x.isObj = true) : asObj (some x) = some x := by
  simp [asObj, h]

theorem J.asObj_eq_some {o : Option J} {x : J} (h : asObj o = some x) : o = some x := by
  rcases o with _ | y
  · simp [asObj] at h
  · simp only [asObj] at h
    by_cases hy : y.isObj
    · simp [hy] at h
      rw [h]
    · simp [hy] at h

theorem J.isObj_of_asObj {o : Option J} {x : J} (h : asObj o = some x) : x.isObj = true := by
  rcases o with _ | y
  · simp [asObj] at h
  · simp only [asObj] at h
    by_cases hy : y.isObj
    · simp [hy] at h
      rw [← h]
      exact hy
    · simp [hy] at h

/-- Deep well-formedness of a decoded JSON value: object spines are proper
`ocons`/`onil` chains and all nested values are well-formed. Every document
produced by `json.Unmarshal` satisfies this. -/
def J.wf : J → Bool
  | .s _ => true
  | .onil => true
  | .ocons _ v rest => v.wf && rest.wf && rest.isObj

theorem J.wf_of_get {j : J} {k : String} {v : J} (hw : j.wf = true)
    (h : j.get k = some v) : v.wf = true := by
  induction j with
  | s str => simp [J.get] at h
  | onil => simp [J.get] at h
  | ocons k' v' rest ihv ih =>
    simp only [J.wf, Bool.and_eq_true] at hw
    by_cases hk : k' = k
    · simp only [J.get, hk, ite_true, if_pos] at h
      have hv := Option.some.inj h
      rw [← hv]
      exact hw.1.1
    · simp only [J.get, hk, ite_false] at h
      exact ih hw.1.2 h

theorem J.isObj_set {j : J} (h : j.isObj = true) (k : String) (v : J) :
    (j.set k v).isObj = true := by
  rcases j with str | _ | ⟨k', v', rest⟩
  · simp [J.isObj] at h
  · simp [J.set, J.isObj]
  · by_cases hk : k' = k <;> simp [J.set, hk, J.isObj]

theorem J.wf_set {j : J} (hw : j.wf = true) {v : J} (hv : v.wf = true) (k : String) :
    (j.set k v).wf = true := by
  induction j with
  | s str => simpa [J.set] using hw
  | onil => simp [J.set, J.wf, J.isObj, hv]
  | ocons k' v' rest ihv ih =>
    simp only [J.wf, Bool.and_eq_true] at hw
    by_cases hk : k' = k
    · simp [J.set, hk, J.wf, hv, hw.1.2, hw.2]
    · simp [J.set, hk, J.wf, hw.1.1, ih hw.1.2, J.isObj_set hw.2]

theorem J.isObj_erase' {j : J} (hobj : j.isObj = true) (hw : j.wf = true) (k : String) :
    (j.erase k).isObj = true := by
  induction j with
  | s str => simp [J.isObj] at hobj
  | onil => simp [J.erase, J.isObj]
  | ocons k' v rest ihv ih =>
    simp only [J.wf, Bool.and_eq_true] at hw
    by_cases hk : k' = k
    · simp only [J.erase, hk, ite_true, if_pos]
      exact ih hw.2 hw.1.2
    · simp [J.erase, hk, J.isObj]

theorem J.wf_erase {j : J} (hw : j.wf = true) (k : String) :
    (j.erase k).wf = true := by
  induction j with
  | s str => simpa [J.erase] using hw
  | onil => simp [J.erase, J.wf]
  | ocons k' v rest ihv ih =>
    simp only [J.wf, Bool.and_eq_true] at hw
    by_cases hk : k' = k
    · simp only [J.erase, hk, ite_true, if_pos]
      exact ih hw.1.2
    · simp [J.erase, hk, J.wf, hw.1.1, ih hw.1.2, J.isObj_erase' hw.2 hw.1.2]

theorem J.get_set_self {j : J} (hobj : j.isObj = true) (hw : j.wf = true)
    (k : String) (v : J) : (j.set k v).get k = some v := by
  induction j with
  | s str => simp [J.isObj] at hobj
  | onil => simp [J.set, J.get]
  | ocons k' v' rest ihv ih =>
    simp only [J.wf, Bool.and_eq_true] at hw
    by_cases hk : k' = k
    · simp [J.set, hk, J.get]
    · simp only [J.set, hk, ite_false]
      simp only [J.get, hk, ite_false]
      exact ih hw.2 hw.1.2

theorem J.get_set_ne (j : J) {k k' : String} (h : k' ≠ k) (v : J) :
    (j.set k v).get k' = j.get k' := by
  induction j with
  | s str => simp [J.set]
  | onil => simp [J.set, J.get, Ne.symm h]
  | ocons k'' v'' rest ihv ih =>
    by_cases hk : k'' = k
    · subst hk
      simp [J.set, J.get, Ne.symm h]
    · simp only [J.set, hk, ite_false]
      by_cases hk2 : k'' = k'
      · simp [J.get, hk2]
      · simp [J.get, hk2, ih]

theorem J.get_erase_self (j : J) (k : String) : (j.erase k).get k = none := by
  induction j with
  | s str => simp [J.erase, J.get]
  | onil => simp [J.erase, J.get]
  | ocons k' v rest ihv ih =>
    by_cases hk : k' = k
    · simp [J.erase, hk, ih]
    · simp [J.erase, hk, J.get, ih]

theorem J.get_erase_ne (j : J) {k k' : String} (h : k' ≠ k) :
    (j.erase k).get k' = j.get k' := by
  induction j with
  | s str => simp [J.erase]
  | onil => simp [J.erase]
  | ocons k'' v rest ihv ih =>
    by_cases hk : k'' = k
    · subst hk
      simp [J.erase, J.get, Ne.symm h, ih]
    · simp only [J.erase, hk, ite_false]
      by_cases hk2 : k'' = k'
      · simp [J.get, hk2]
      · simp [J.get, hk2, ih]

theorem J.erase_set_self (j : J) (k : String) (v : J) :
    (j.set k v).erase k = j.erase k := by
  induction j with
  | s str => simp [J.set, J.erase]
  | onil => simp [J.set, J.erase]
  | ocons k' v' rest ihv ih =>
    by_cases hk : k' = k
    · simp [J.set, hk, J.erase]
    · simp [J.set, hk, J.erase, ih]

theorem J.erase_of_get_none {j : J} {k : String} (h : j.get k = none) : j.erase k = j := by
  induction j with
  | s str => simp [J.erase]
  | onil => simp [J.erase]
  | ocons k' v rest ihv ih =>
    by_cases hk : k' = k
    · simp [J.get, hk] at h
    · simp only [J.get, hk, ite_false] at h
      simp [J.erase, hk, ih h]

theorem J.set_of_get_self {j : J} {k : String} {v : J} (h : j.get k = some v) :
    j.set k v = j := by
  induction j with
  | s str => simp [J.get] at h
  | onil => simp [J.get] at h
  | ocons k' v' rest ihv ih =>
    by_cases hk : k' = k
    · simp only [J.get, hk, ite_true, if_pos] at h
      have hv := Option.some.inj h
      simp [J.set, hk, hv]
    · simp only [J.get, hk, ite_false] at h
      simp [J.set, hk, ih h]

theorem J.keyCount_ne_zero_of_get {j : J} {k : String} {v : J} (h : j.get k = some v) :
    j.keyCount ≠ 0 := by
  rcases j with str | _ | ⟨k', v', rest⟩
  · simp [J.get] at h
  · simp [J.get] at h
  · simp [J.keyCount]

theorem J.mem_keys_of_get {j : J} {k : String} {v : J} (h : j.get k = some v) :
    k ∈ j.keys := by
  induction j with
  | s str => simp [J.get] at h
  | onil => simp [J.get] at h
  | ocons k' v' rest ihv ih =>
    by_cases hk : k' = k
    · simp [J.keys, hk]
    · simp only [J.get, hk, ite_false] at h
      simp [J.keys, ih h]

/-! ### C5: config add/remove algebra -/

theorem projWs_isObj (doc : J) (p : String) : (projWs doc p).isObj = true := by
  unfold projWs
  rcases hA : asObj (doc.get p) with _ | project
  · simp [J.isObj]
  · rcases hW : asObj (project.get "workrooms") with _ | w
    · simp [hW, J.isObj]
    · simp [hW]
      exact J.isObj_of_asObj hW

theorem projWs_wf (doc : J) (hw : doc.wf = true) (p : String) :
    (projWs doc p).wf = true := by
  unfold projWs
  rcases hA : asObj (doc.get p) with _ | project
  · simp [J.wf]
  · rcases hW : asObj (project.get "workrooms") with _ | w
    · simp [hW, J.wf]
    · simp [hW]
      exact J.wf_of_get (J.wf_of_get hw (J.asObj_eq_some hA)) (J.asObj_eq_some hW)

theorem addProject0_isObj (doc : J) (p v : String) : (addProject0 doc p v).isObj = true := by
  unfold addProject0
  rcases hA : asObj (doc.get p) with _ | pj
  · simp [J.isObj]
  · simp
    exact J.isObj_of_asObj hA

theorem addProject0_wf (doc : J) (hw : doc.wf = true) (p v : String) :
    (addProject0 doc p v).wf = true := by
  unfold addProject0
  rcases hA : asObj (doc.get p) with _ | pj
  · simp [J.wf, J.isObj]
  · simp
    exact J.wf_of_get hw (J.asObj_eq_some hA)

theorem addWs0_eq_projWs (doc : J) (p v : String) : addWs0 doc p v = projWs doc p := by
  unfold addWs0 addProject0 projWs
  rcases hA : asObj (doc.get p) with _ | pj
  · rfl
  · simp only
    rw [J.get_set_ne pj (by decide) (.s v)]
    rcases hW : asObj (pj.get "workrooms") with _ | w <;> simp [hW]

/-- The project entry written by `AddWorkroom` and its decomposition. -/
theorem addWorkroom_parts (doc : J) (hobj : doc.isObj = true) (hw : doc.wf = true)
    (p n pth v : String) :
    ∃ P, (addWorkroom doc p n pth v).get p = some P ∧ P.isObj = true ∧ P.wf = true ∧
      P.get "workrooms" = some ((projWs doc p).set n (J.ocons "path" (.s pth) .onil)) ∧
      ((projWs doc p).set n (J.ocons "path" (.s pth) .onil)).isObj = true ∧
      ((projWs doc p).set n (J.ocons "path" (.s pth) .onil)).wf = true := by
  have hp1o : ((addProject0 doc p v).set "vcs" (.s v)).isObj = true :=
    J.isObj_set (addProject0_isObj doc p v) _ _
  have hp1w : ((addProject0 doc p v).set "vcs" (.s v)).wf = true :=
    J.wf_set (addProject0_wf doc hw p v) (by simp [J.wf]) _
  have hW1o : ((projWs doc p).set n (J.ocons "path" (.s pth) .onil)).isObj = true :=
    J.isObj_set (projWs_isObj doc p) _ _
  have hW1w : ((projWs doc p).set n (J.ocons "path" (.s pth) .onil)).wf = true :=
    J.wf_set (projWs_wf doc hw p) (by simp [J.wf, J.isObj]) _
  refine ⟨((addProject0 doc p v).set "vcs" (.s v)).set "workrooms"
      ((addWs0 doc p v).set n (J.ocons "path" (.s pth) .onil)), ?_, ?_, ?_, ?_, hW1o, hW1w⟩
  · unfold addWorkroom
    exact J.get_set_self hobj hw p _
  · exact J.isObj_set hp1o _ _
  · rw [addWs0_eq_projWs]
    exact J.wf_set hp1w hW1w _
  · rw [addWs0_eq_projWs]
    exact J.get_set_self hp1o hp1w _ _

theorem addWorkroom_isObj (doc : J) (hobj : doc.isObj = true) (p n pth v : String) :
    (addWorkroom doc p n pth v).isObj = true :=
  J.isObj_set hobj _ _

theorem addWorkroom_wf (doc : J) (hobj : doc.isObj = true) (hw : doc.wf = true)
    (p n pth v : String) : (addWorkroom doc p n pth v).wf = true := by
  rcases addWorkroom_parts doc hobj hw p n pth v with ⟨P, hg, hPo, hPw, _, _, _⟩
  have : addWorkroom doc p n pth v =
      doc.set p (((addProject0 doc p v).set "vcs" (.s v)).set "workrooms"
        ((addWs0 doc p v).set n (J.ocons "path" (.s pth) .onil))) := rfl
  rw [this]
  refine J.wf_set hw ?_ _
  rw [addWs0_eq_projWs]
  refine J.wf_set (J.wf_set (addProject0_wf doc hw p v) (by simp [J.wf]) _) ?_ _
  exact J.wf_set (projWs_wf doc hw p) (by simp [J.wf, J.isObj]) _

/-- C5 (amended): adding a workroom as a project's only workroom and removing
it again prunes the project entry entirely; adding two workrooms and removing
one leaves the other's stored path unchanged; `RemoveWorkroom` leaves the
document unchanged when the project entry is absent (or not an object), and
when the named workroom is absent but the project still has at least one
workroom; however, when the project exists with an empty workrooms object,
removing any (necessarily absent) name prunes the project entry (see the
counterexample). -/
theorem config_add_remove (doc : J) (p n n2 pth pth2 v : String)
    (hobj : doc.isObj = true) (hw : doc.wf = true) :
    (((projWs doc p).erase n).keyCount = 0 →
      (removeWorkroom (addWorkroom doc p n pth v) p n).get p = none)
    ∧ (n ≠ n2 →
        wrPathOf (removeWorkroom (addWorkroom (addWorkroom doc p n pth v) p n2 pth2 v) p n2) p n
          = some (.s pth))
    ∧ (asObj (doc.get p) = none → removeWorkroom doc p n = doc)
    ∧ ((projWs doc p).get n = none → (projWs doc p).keyCount ≠ 0 →
        removeWorkroom doc p n = doc) := by
  refine ⟨?_, ?_, ?_, ?_⟩
  · -- only workroom: add then remove prunes the project
    intro h0
    rcases addWorkroom_parts doc hobj hw p n pth v with ⟨P, hg, hPo, hPw, hgw, hWo, hWw⟩
    unfold removeWorkroom
    rw [hg, J.asObj_some hPo]
    simp only []
    rw [hgw, J.asObj_some hWo]
    simp only []
    rw [J.erase_set_self, h0]
    simp only [ite_true, if_pos]
    exact J.get_erase_self _ p
  · -- two workrooms: removing one preserves the other's path
    intro hne
    have hobj1 : (addWorkroom doc p n pth v).isObj = true := addWorkroom_isObj doc hobj p n pth v
    have hw1 : (addWorkroom doc p n pth v).wf = true := addWorkroom_wf doc hobj hw p n pth v
    rcases addWorkroom_parts (addWorkroom doc p n pth v) hobj1 hw1 p n2 pth2 v with
      ⟨P2, hg2, hP2o, hP2w, hgw2, hW2o, hW2w⟩
    have hproj1 : projWs (addWorkroom doc p n pth v) p
        = (projWs doc p).set n (J.ocons "path" (.s pth) .onil) := by
      rcases addWorkroom_parts doc hobj hw p n pth v with ⟨P1, hg1, hP1o, _, hgw1, hW1o, _⟩
      unfold projWs
      rw [hg1, J.asObj_some hP1o]
      simp only []
      rw [hgw1, J.asObj_some hW1o]
      rfl
    unfold removeWorkroom
    rw [hg2, J.asObj_some hP2o]
    simp only []
    rw [hgw2, J.asObj_some hW2o]
    simp only []
    rw [J.erase_set_self]
    rw [hproj1]
    set W2 := (((projWs doc p).set n (J.ocons "path" (J.s pth) J.onil)).erase n2) with hW2def
    have hgetn : W2.get n = some (J.ocons "path" (.s pth) .onil) := by
      rw [hW2def, J.get_erase_ne _ hne]
      exact J.get_set_self (projWs_isObj doc p) (projWs_wf doc hw p) n _
    have hkc := J.keyCount_ne_zero_of_get hgetn
    simp only [hkc, ite_false, if_neg]
    have hW2o : W2.isObj = true := by
      rw [hW2def]
      exact J.isObj_erase'
        (J.isObj_set (projWs_isObj doc p) _ _)
        (J.wf_set (projWs_wf doc hw p) (by simp [J.wf, J.isObj]) _) n2
    unfold wrPathOf projWs
    rw [J.get_set_self (addWorkroom_isObj _ hobj1 _ _ _ _) (addWorkroom_wf _ hobj1 hw1 _ _ _ _) p _]
    rw [J.asObj_some (J.isObj_set hP2o _ _)]
    simp only []
    rw [J.get_set_self hP2o hP2w "workrooms" _]
    rw [J.asObj_some hW2o]
    simp only []
    rw [hgetn]
    rfl
  · intro h
    unfold removeWorkroom
    rw [h]
  · intro hgn hkc
    unfold removeWorkroom
    rcases hA : asObj (doc.get p) with _ | project
    · rfl
    simp only []
    rcases hW : asObj (project.get "workrooms") with _ | w
    · rfl
    have hwproj : projWs doc p = w := by
      unfold projWs
      rw [hA]
      simp only []
      rw [hW]
    rw [hwproj] at hgn hkc
    simp only
    rw [J.erase_of_get_none hgn]
    simp only [hkc, ite_false, if_neg]
    rw [J.set_of_get_self (J.asObj_eq_some hW), J.set_of_get_self (J.asObj_eq_some hA)]

/-- A config document with one project whose workrooms object is empty. -/
def c5Doc : J :=
  J.ocons "/p" (J.ocons "vcs" (J.s "git") (J.ocons "workrooms" J.onil J.onil)) J.onil

/-- C5 (counterexample): `RemoveWorkroom` is not a no-op whenever the
workroom is absent — on a project whose workrooms object is empty, removing
an absent name prunes the whole project entry. -/
theorem remove_absent_prunes_empty_project :
    (c5Doc.get "/p").isSome = true
    ∧ (projWs c5Doc "/p").get "x" = none
    ∧ removeWorkroom c5Doc "/p" "x" ≠ c5Doc
    ∧ removeWorkroom c5Doc "/p" "x" = J.onil := by
  refine ⟨by decide, by decide, by decide, by decide⟩

theorem config_add_remove_witness :
    (removeWorkroom (addWorkroom J.onil "/p" "alpha" "/w/alpha" "git") "/p" "alpha").get "/p" = none
    ∧ wrPathOf (removeWorkroom (addWorkroom (addWorkroom J.onil "/p" "alpha" "/w/alpha" "git")
        "/p" "beta" "/w/beta" "git") "/p" "beta") "/p" "alpha" = some (.s "/w/alpha") :=
  ⟨(config_add_remove J.onil "/p" "alpha" "beta" "/w/alpha" "/w/beta" "git" rfl rfl).1 (by decide),
   (config_add_remove J.onil "/p" "alpha" "beta" "/w/alpha" "/w/beta" "git" rfl rfl).2.1 (by decide)⟩

/-! ### C6: FindCurrentProject -/

theorem scanDoc_some {doc : J} {cwd pp : String} {pr : J}
    (h : scanDoc doc cwd = some (pp, pr)) :
    pr.isObj = true ∧ ownsWr pr cwd = true := by
  induction doc with
  | s str => simp [scanDoc] at h
  | onil => simp [scanDoc] at h
  | ocons k v rest ihv ih =>
    unfold scanDoc at h
    by_cases hc : (v.isObj && ownsWr v cwd) = true
    · rw [if_pos hc] at h
      rcases Prod.mk.injEq .. ▸ (Option.some.inj h) with ⟨h1, h2⟩
      rw [Bool.and_eq_true] at hc
      rw [← h2]
      exact hc
    · rw [if_neg hc] at h
      exact ih h

theorem scanDoc_get {doc : J} {cwd pp : String} {pr : J}
    (hnd : doc.keys.Nodup) (h : scanDoc doc cwd = some (pp, pr)) :
    doc.get pp = some pr := by
  induction doc with
  | s str => simp [scanDoc] at h
  | onil => simp [scanDoc] at h
  | ocons k v rest ihv ih =>
    unfold scanDoc at h
    simp only [J.keys, List.nodup_cons] at hnd
    by_cases hc : (v.isObj && ownsWr v cwd) = true
    · rw [if_pos hc] at h
      rcases Prod.mk.injEq .. ▸ (Option.some.inj h) with ⟨h1, h2⟩
      simp [J.get, h1, h2]
    · rw [if_neg hc] at h
      have hrest := ih hnd.2 h
      have hppk : k ≠ pp := by
        intro he
        exact hnd.1 (he ▸ J.mem_keys_of_get hrest)
      simp [J.get, hppk, hrest]

theorem scanDoc_none {doc : J} {cwd : String} (h : scanDoc doc cwd = none) :
    ∀ pp pr, doc.get pp = some pr → pr.isObj = true → ownsWr pr cwd = true → False := by
  induction doc with
  | s str => intro pp pr hg; simp [J.get] at hg
  | onil => intro pp pr hg; simp [J.get] at hg
  | ocons k v rest ihv ih =>
    intro pp pr hg hobj howns
    unfold scanDoc at h
    by_cases hc : (v.isObj && ownsWr v cwd) = true
    · rw [if_pos hc] at h
      exact absurd h (by simp)
    · rw [if_neg hc] at h
      by_cases hk : k = pp
      · simp only [J.get, hk, ite_true, if_pos] at hg
        have hv := Option.some.inj hg
        rw [hv, hobj, howns] at hc
        exact hc rfl
      · simp only [J.get, hk, ite_false] at hg
        exact ih h pp pr hg hobj howns

/-- C6: `FindCurrentProject(cwd)` returns the project entry keyed exactly by
`cwd` when one is present as an object; otherwise, when the scan finds a
project owning a workroom stored at `cwd`, it returns that owning project's
path (necessarily different from `cwd`) with its data; when additionally no
project owns `cwd` it reports not-found, echoing `cwd`; and the scan misses
nothing: if any project owns a workroom at `cwd`, it finds one. -/
theorem find_current_project (doc : J) (cwd : String) (hnd : doc.keys.Nodup) :
    (∀ pr, asObj (doc.get cwd) = some pr → findCurrentProject doc cwd = (cwd, some pr, true))
    ∧ (asObj (doc.get cwd) = none →
        ∀ pp pr, scanDoc doc cwd = some (pp, pr) →
          findCurrentProject doc cwd = (pp, some pr, true) ∧ doc.get pp = some pr ∧
          ownsWr pr cwd = true ∧ pp ≠ cwd)
    ∧ (asObj (doc.get cwd) = none →
        (∃ pp pr, doc.get pp = some pr ∧ pr.isObj = true ∧ ownsWr pr cwd = true) →
        scanDoc doc cwd ≠ none)
    ∧ (asObj (doc.get cwd) = none → scanDoc doc cwd = none →
        findCurrentProject doc cwd = (cwd, none, false)) := by
  refine ⟨?_, ?_, ?_, ?_⟩
  · intro pr h
    unfold findCurrentProject
    rw [h]
  · intro h0 pp pr hs
    have hget := scanDoc_get hnd hs
    have hso := scanDoc_some hs
    refine ⟨?_, hget, hso.2, ?_⟩
    · unfold findCurrentProject
      rw [h0]
      simp only []
      rw [hs]
    · intro he
      rw [he] at hget
      rw [hget, J.asObj_some hso.1] at h0
      exact absurd h0 (by simp)
  · intro h0 hex hnone
    rcases hex with ⟨pp, pr, hget, hobj, howns⟩
    exact scanDoc_none hnone pp pr hget hobj howns
  · intro h0 hnone
    unfold findCurrentProject
    rw [h0]
    simp only []
    rw [hnone]

/-- A config document with a Git project at `/proj` owning workroom `foo`
stored at `/w/foo`. -/
def c6Doc : J :=
  J.ocons "/proj"
    (J.ocons "vcs" (J.s "git")
      (J.ocons "workrooms" (J.ocons "foo" (J.ocons "path" (J.s "/w/foo") J.onil) J.onil) J.onil))
    J.onil

theorem find_current_project_witness :
    findCurrentProject c6Doc "/w/foo" =
      ("/proj",
       some (J.ocons "vcs" (J.s "git")
         (J.ocons "workrooms" (J.ocons "foo" (J.ocons "path" (J.s "/w/foo") J.onil) J.onil) J.onil)),
       true) :=
  ((find_current_project c6Doc "/w/foo" (by decide)).2.1 (by decide) "/proj" _ (by decide)).1

theorem name_validation_witness :
    validName (String.mk ['f', 'o', 'o', '-', 'b', 'a', 'r', '_', '9']) = true
    ∧ validName "f.o" = false
    ∧ validName "-foo" = false
    ∧ deleteM baseWorld "/p" "-foo" ""
        = (.error (.invalidName "-foo"), [Ev.statQ (joinP "/p" ".Workroom")]) := by
  refine ⟨?_, ?_, ?_, ?_⟩
  · exact name_validation.1 'f' ['o', 'o', '-', 'b', 'a', 'r', '_', '9']
      (by decide) (by decide) (by decide)
  · exact name_validation.2.1 "f.o" ⟨'.', by decide, by decide⟩
  · exact name_validation.2.2.1 "-foo" ⟨'-', by decide, by decide⟩
  · exact name_validation.2.2.2 baseWorld "/p" "-foo" "" (by decide) (by decide)

end Workroom
